import Mathlib

/-!
# Airlock: peer directory and wire protocol

A shallow embedding of `airlock/main.go` (a UDP peer-to-peer chat) and the
theorems that settle the claims made about it.

Conventions of the embedding.

* A Go `string` / `[]byte` is the list of its bytes, written `List Char`
  (one `Char` per byte).
* A Go `int` is an `Int`; the 64-bit range is the predicate `isInt64`.
  `strconv.Atoi` and `strconv.Itoa` are transcribed from the Go library,
  the saturation of `Atoi` on out-of-range input included.
* A `net.IP` is `nil` or an IPv4 address.  Every IP of the program comes
  from `net.ParseIP` applied to a text without `':'` (the text before the
  first `':'` of a `host:port`, or the `String()` of a sender address of the
  IPv4 socket bound to `127.0.0.1`), so the IPv6 forms cannot arise.
* A `time.Time` is an `Int` number of nanoseconds; `time.Now()` is an
  explicit argument.
* One iteration of a receive / input loop is a function from the state and
  the received input to the new state and the list of datagrams written.
* A read into the `[1024]byte` buffer keeps the first 1024 bytes of the
  datagram (`readBuf`).
* `net.DialUDP` may return a nil connection (`DialUDP`); the program drops
  the error and the first use of the nil connection panics.  A run that
  panics or ends in `log.Fatal` is marked in the result.
-/

namespace Airlock

/-! ## Go library: `strings` -/

/-- Go `strings.HasPrefix s sub`. -/
def startsWith : List Char → List Char → Bool
  | _, [] => true
  | [], _ :: _ => false
  | c :: cs, d :: ds => decide (c = d) && startsWith cs ds

/-- Go `strings.Contains s sub`: `sub` occurs somewhere in `s`. -/
def Contains : List Char → List Char → Bool
  | [], sub => sub.isEmpty
  | c :: cs, sub => startsWith (c :: cs) sub || Contains cs sub

/-- Go `strings.Split s sep` for a one-byte separator: the pieces of `s`
between the occurrences of `sep`; never the empty list. -/
def Split : List Char → Char → List (List Char)
  | [], _ => [[]]
  | c :: cs, sep =>
    if c = sep then [] :: Split cs sep
    else
      match Split cs sep with
      | [] => [[c]]
      | h :: t => (c :: h) :: t

/-- Go `strings.Join parts sep`. -/
def Join : List (List Char) → List Char → List Char
  | [], _ => []
  | [a], _ => a
  | a :: b :: rest, sep => a ++ sep ++ Join (b :: rest) sep

/-! ## Go library: `strconv` -/

/-- Bounds of a Go `int` on a 64-bit platform. -/
def isInt64 (i : Int) : Prop := -(2 ^ 63 : Int) ≤ i ∧ i < (2 ^ 63 : Int)

instance (i : Int) : Decidable (isInt64 i) := by
  unfold isInt64; infer_instance

/-- The byte `'0' + d`. -/
def digitChar (d : Nat) : Char := Char.ofNat (48 + d)

/-- Whether a byte is one of `'0'` .. `'9'`. -/
def isDigit (c : Char) : Bool := decide (48 ≤ c.toNat) && decide (c.toNat ≤ 57)

/-- The value `c - '0'` of a digit byte. -/
def digitVal (c : Char) : Nat := c.toNat - 48

/-- Go `strconv.formatBits` in base 10: the digits of `n` are pushed in front
of `acc`, least significant first, until the quotient is zero.  The first
argument bounds the number of iterations. -/
def formatBits : Nat → Nat → List Char → List Char
  | 0, _, acc => acc
  | fuel + 1, n, acc =>
    if n / 10 = 0 then digitChar (n % 10) :: acc
    else formatBits fuel (n / 10) (digitChar (n % 10) :: acc)

/-- Decimal text of a natural number, without leading zeros. -/
def utoa (n : Nat) : List Char := formatBits (n + 1) n []

/-- Go `strconv.Itoa`. -/
def Itoa (i : Int) : List Char :=
  if i < 0 then '-' :: utoa i.natAbs else utoa i.natAbs

/-- The digit loop of the fast path of `strconv.Atoi`: `none` on a byte
that is not a digit. -/
def atoiLoop : Nat → List Char → Option Nat
  | n, [] => some n
  | n, ch :: rest => if isDigit ch then atoiLoop (n * 10 + digitVal ch) rest else none

/-- The fast path of `strconv.Atoi` (inputs of 1 to 18 bytes). -/
def atoiFast (s0 : List Char) : Int :=
  let s := if s0.head? = some '-' ∨ s0.head? = some '+' then s0.drop 1 else s0
  if s.length < 1 then 0
  else
    match atoiLoop 0 s with
    | none => 0
    | some n => if s0.head? = some '-' then -(n : Int) else (n : Int)

/-- Outcome of `strconv.ParseUint`. -/
inductive UintResult
  | ok (n : Nat)
  | syntaxErr
  | rangeErr
  deriving DecidableEq, Repr

/-- The digit loop of `strconv.ParseUint s 10 64`, on 64-bit words: a
byte that is not a digit is a syntax error, an overflow a range error. -/
def parseUintLoop : Nat → List Char → UintResult
  | n, [] => UintResult.ok n
  | n, c :: rest =>
    if !isDigit c then UintResult.syntaxErr
    else if n ≥ (2 ^ 64 - 1) / 10 + 1 then UintResult.rangeErr
    else
      let n10 := (n * 10) % 2 ^ 64
      let n1 := (n10 + digitVal c) % 2 ^ 64
      if n1 < n10 ∨ n1 > 2 ^ 64 - 1 then UintResult.rangeErr
      else parseUintLoop n1 rest

/-- Go `strconv.ParseUint s 10 64`. -/
def ParseUint (s : List Char) : UintResult :=
  if s = [] then UintResult.syntaxErr else parseUintLoop 0 s

/-- Go `strconv.ParseInt s 10 0`, the returned value only: `0` on a syntax
error, the nearest bound on a range error. -/
def ParseInt (s0 : List Char) : Int :=
  if s0 = [] then 0
  else
    let neg := decide (s0.head? = some '-')
    let s := if s0.head? = some '+' ∨ s0.head? = some '-' then s0.drop 1 else s0
    match ParseUint s with
    | UintResult.syntaxErr => 0
    | UintResult.rangeErr => if neg then -(2 ^ 63 : Int) else (2 ^ 63 : Int) - 1
    | UintResult.ok un =>
      if !neg && decide (un ≥ 2 ^ 63) then (2 ^ 63 : Int) - 1
      else if neg && decide (un > 2 ^ 63) then -(2 ^ 63 : Int)
      else if neg then -(un : Int) else (un : Int)

/-- Go `strconv.Atoi` with the error dropped, as every call site does
(`n, _ := strconv.Atoi(..)`). -/
def Atoi (s : List Char) : Int :=
  if 0 < s.length ∧ s.length < 19 then atoiFast s else ParseInt s

/-! ## Go library: `net` and `time` -/

/-- Go `net.IP`, restricted to the values this program can hold: `nil`
(the result of a failed `net.ParseIP`) or an IPv4 address. -/
inductive IP
  | nil
  | v4 (a b c d : Fin 256)
  deriving DecidableEq, Repr

/-- Go `IP.String()`: dotted decimal, and `<nil>` for the nil IP. -/
def IP.String : IP → List Char
  | IP.nil => "<nil>".toList
  | IP.v4 a b c d =>
    utoa a.val ++ '.' :: utoa b.val ++ '.' :: utoa c.val ++ '.' :: utoa d.val

/-- The loop of Go `netip.parseIPv4Fields`.  `prev` is the byte before the
current one (`none` at index 0), `val` and `digLen` describe the octet being
read, `fields` the octets completed so far. -/
def parseIPv4Fields : Option Char → Nat → Nat → List Nat → List Char → Option (List Nat)
  | _, val, _, fields, [] => if fields.length < 3 then none else some (fields ++ [val])
  | prev, val, digLen, fields, c :: rest =>
    if isDigit c then
      if digLen = 1 ∧ val = 0 then none
      else if val * 10 + digitVal c > 255 then none
      else parseIPv4Fields (some c) (val * 10 + digitVal c) (digLen + 1) fields rest
    else if c = '.' then
      if prev = none ∨ rest = [] ∨ prev = some '.' then none
      else if fields.length = 3 then none
      else parseIPv4Fields (some c) 0 0 (fields ++ [val]) rest
    else none

/-- Go `net.ParseIP` on a text without `':'`: the first of `'.'`, `':'`,
`'%'` in the text selects the parser; only `'.'` leads to an IPv4 address,
every failure is the nil IP.  (A text with `':'` is handed by Go to its IPv6
parser; no call of this program passes one, and the model answers nil.) -/
def ParseIP (s : List Char) : IP :=
  match s.find? (fun c => decide (c = '.') || decide (c = ':') || decide (c = '%')) with
  | none => IP.nil
  | some c =>
    if c = '.' then
      match parseIPv4Fields none 0 0 [] s with
      | some [a, b, c, d] => IP.v4 (Fin.ofNat a) (Fin.ofNat b) (Fin.ofNat c) (Fin.ofNat d)
      | _ => IP.nil
    else IP.nil

/-- Go `net.UDPAddr` (the zone is always empty here). -/
structure UDPAddr where
  IP : IP
  Port : Int
  deriving DecidableEq, Repr

/-- Go `net.ipEmptyString`: the empty text for the nil IP. -/
def ipEmptyString (ip : IP) : List Char :=
  match ip with
  | IP.nil => []
  | IP.v4 a b c d => (IP.v4 a b c d).String

/-- Go `net.JoinHostPort`: a host with a colon is put in brackets. -/
def JoinHostPort (host port : List Char) : List Char :=
  if ':' ∈ host then '[' :: host ++ "]:".toList ++ port
  else host ++ ':' :: port

/-- Go `UDPAddr.String()`. -/
def UDPAddr.String (a : UDPAddr) : List Char :=
  JoinHostPort (ipEmptyString a.IP) (Itoa a.Port)

/-- Go `net.DialUDP("udp", nil, a)`: whether a connection, not nil, is
returned.  The system call refuses a port outside 0..65535; for the other
addresses `route a` says whether the operating system connects the socket. -/
def DialUDP (route : UDPAddr → Bool) (a : UDPAddr) : Bool :=
  decide (0 ≤ a.Port) && decide (a.Port ≤ 65535) && route a

/-- A read of one datagram into a `[1024]byte` buffer: `buff[:rlen]` is the
first 1024 bytes of the datagram, the rest is lost. -/
def readBuf (datagram : List Char) : List Char := datagram.take 1024

/-- Go `time.Minute`, in nanoseconds. -/
def Minute : Int := 60 * 1000000000

/-- Go `time.Since t` at clock reading `now`: the difference in
nanoseconds, saturated to the range of a `time.Duration`. -/
def Since (now t : Int) : Int :=
  if now - t > 2 ^ 63 - 1 then 2 ^ 63 - 1
  else if now - t < -(2 ^ 63) then -(2 ^ 63)
  else now - t

/-! ## The program -/

/-- The `peer` struct: address, display name, time last seen. -/
structure peer where
  addr : UDPAddr
  name : List Char
  time : Int
  deriving DecidableEq, Repr

/-- The `circle` struct: `peers[0]` is meant to be the local peer. -/
structure circle where
  peers : List peer
  name : List Char
  deriving DecidableEq, Repr

/-- A datagram written to a destination address: one call of `Write` or
`WriteTo` with this payload.  What the network does with it is not part of
the model. -/
abbrev Datagram := UDPAddr × List Char

/-- `newPeer(ip, port)`, with `time.Now()` given as `now`. -/
def newPeer (now : Int) (ip : List Char) (port : Int) : peer :=
  { addr := { IP := ParseIP ip, Port := port }, name := [], time := now }

/-- The loop of `peerExists` over a slice: index of the first peer whose
`addr.IP.String()` is `ip` and whose port is `port`; `none` stands for `-1`. -/
def peerIndex (ip : List Char) (port : Int) : List peer → Option Nat
  | [] => none
  | p :: ps =>
    if p.addr.IP.String = ip ∧ p.addr.Port = port then some 0
    else (peerIndex ip port ps).map (· + 1)

/-- `peerExists(c, ip, port)`. -/
def peerExists (c : circle) (ip : List Char) (port : Int) : Option Nat :=
  peerIndex ip port c.peers

/-- `isIdle(peer)` at clock reading `now`. -/
def isIdle (now : Int) (p : peer) : Bool :=
  decide (Since now p.time > 10 * Minute)

/-- The classification made by the `if` chain of `listen`, with the port
each branch reads from the payload. -/
inductive Msg
  | chat
  | quit (remotePort : Int)
  | heartbeat (remotePort : Int)
  | join (remotePort : Int)
  deriving DecidableEq, Repr

/-- The `if` / `else if` chain of `listen` on the payload `buff[:rlen]`. -/
def classify (buff : List Char) : Msg :=
  if Contains buff ">".toList then Msg.chat
  else if Contains buff "/quit".toList then
    Msg.quit (Atoi ((Split buff ',').getLastD []))
  else if Contains buff "/heartbeat".toList then
    Msg.heartbeat (Atoi ((Split buff ',').getLastD []))
  else Msg.join (Atoi buff)

/-- The removal of `listen`: `copy(c.peers[i:], c.peers[i+1:])` shifts the
tail down by one over the slot `i` (the last slot keeps its old content),
then the slice is cut to `len-1`. -/
def removeAt (ps : List peer) (i : Nat) : List peer :=
  (ps.take i ++ ps.drop (i + 1) ++ ps.drop (ps.length - 1)).take (ps.length - 1)

/-- The peer list `listen` writes back to a connecting peer: the joined
`addr.String()` of `c.peers[1:]`, or `nil` when there is none. -/
def peerlist (c : circle) : List Char :=
  if c.peers.length > 1 then Join ((c.peers.drop 1).map (fun p => p.addr.String)) ",".toList
  else "nil".toList

/-- The body of the receive loop of `listen` on the bytes read,
`buff[:rlen]`, received from `remote` at clock reading `now`.  Returns the
new circle and the datagrams written to the socket. -/
def handle (now : Int) (c : circle) (remote : UDPAddr) (buff : List Char) :
    circle × List Datagram :=
  match classify buff with
  | Msg.chat => (c, [])
  | Msg.quit remotePort =>
    match peerExists c remote.IP.String remotePort with
    | some i => ({ c with peers := removeAt c.peers i }, [])
    | none => (c, [])
  | Msg.heartbeat remotePort =>
    match peerExists c remote.IP.String remotePort with
    | some j => ({ c with peers := c.peers.modify (fun p => { p with time := now }) j }, [])
    | none => (c, [])
  | Msg.join remotePort =>
    let out : List Datagram := [(remote, peerlist c)]
    if peerExists c remote.IP.String remotePort = none then
      ({ c with peers := c.peers ++ [newPeer now remote.IP.String remotePort] }, out)
    else (c, out)

/-- One iteration of the receive loop of `listen`: the datagram sent by
`remote` is read into the 1024-byte buffer at clock reading `now` and the
bytes read are handled. -/
def listen (now : Int) (c : circle) (remote : UDPAddr) (datagram : List Char) :
    circle × List Datagram :=
  handle now c remote (readBuf datagram)

/-- The receive loop of `listen` run over a finite sequence of datagrams
(clock reading, sender, datagram), from the first to the last. -/
def listenAll (c : circle) : List (Int × UDPAddr × List Char) → circle
  | [] => c
  | (now, remote, datagram) :: rest => listenAll (listen now c remote datagram).1 rest

/-- The quit command `chat` writes: `"/quit," + port`. -/
def quitMsg (port : Int) : List Char := "/quit,".toList ++ Itoa port

/-- The text message `chat` writes: `name + " > " + buffer`. -/
def chatMsg (name buffer : List Char) : List Char := name ++ " > ".toList ++ buffer

/-- The control message `heartbeat` writes: `"/heartbeat," + port`. -/
def heartbeatMsg (port : Int) : List Char := "/heartbeat,".toList ++ Itoa port

/-- The announcement `connect` writes: the local listen port in decimal. -/
def joinMsg (port : Int) : List Char := Itoa port

/-- The text before the first `':'` and the integer after the last `':'` of
one entry of a received peer list, as the loop of `connect` reads them. -/
def peerEntry (entry : List Char) : List Char × Int :=
  ((Split entry ':').headD [], Atoi ((Split entry ':').getLastD []))

/-- The loop of `connect` over the entries of the received peer list.  `k`
is the index of the entry, `clock k` the reading of `time.Now()` while it is
processed, `buff` the announcement sent to each added peer.  The last
component is `true` when the loop panics: the peer has been appended, its
dial returned nil and `defer client2.Close()` dereferences it. -/
def connectLoop (route : UDPAddr → Bool) (clock : Nat → Int) (buff : List Char) :
    List (List Char) → Nat → circle → circle × List Datagram × Bool
  | [], _, c => (c, [], false)
  | entry :: rest, k, c =>
    if peerExists c (peerEntry entry).1 (peerEntry entry).2 = none then
      let q := newPeer (clock k) (peerEntry entry).1 (peerEntry entry).2
      if DialUDP route q.addr then
        let r := connectLoop route clock buff rest (k + 1) { c with peers := c.peers ++ [q] }
        (r.1, (q.addr, buff) :: r.2.1, r.2.2)
      else ({ c with peers := c.peers ++ [q] }, [], true)
    else connectLoop route clock buff rest (k + 1) c

/-- The entries `connect` reads from the bytes read: none for the text
`nil`, otherwise the pieces between commas. -/
def peerlistEntries (readbuff : List Char) : List (List Char) :=
  if readbuff ≠ "nil".toList then Split readbuff ',' else []

/-- The merge of `connect`: the bytes read, `readbuff[:n]`, are added to
the circle. -/
def connectMerge (route : UDPAddr → Bool) (clock : Nat → Int) (buff : List Char) (c : circle)
    (readbuff : List Char) : circle × List Datagram × Bool :=
  connectLoop route clock buff (peerlistEntries readbuff) 0 c

/-- The function `connect` up to the start of the heartbeat: the dial of
`c.peers[1]`, the announcement to it, the read of the answer `datagram` into
the 1024-byte buffer, the merge.  The last component is `true` when the
function does not return: the panic of `c.peers[1]` on a circle without
bootstrap, `log.Fatal` on a failed dial of the bootstrap, or a panic in the
loop. -/
def connect (route : UDPAddr → Bool) (clock : Nat → Int) (c : circle) (datagram : List Char) :
    circle × List Datagram × Bool :=
  match c.peers with
  | c0 :: c1 :: _ =>
    if DialUDP route c1.addr then
      let buff := joinMsg c0.addr.Port
      let r := connectMerge route clock buff c (readBuf datagram)
      (r.1, (c1.addr, buff) :: r.2.1, r.2.2)
    else (c, [], true)
  | _ => (c, [], true)

/-- How one iteration of the scanner loop of `chat` ends: the loop goes on
with the next line, the function returns, or the iteration panics. -/
inductive Flow
  | next
  | returned
  | panicked
  deriving DecidableEq, Repr

/-- The inner loop of `chat` over `c.peers[1:]` for the input line `buffer`.
`c0` is `c.peers[0]`, `k` the index of the peer in the loop and `clock k` the
clock reading of its `isIdle` check.  The second component is `true` when
the loop panics: the dial of the peer returned nil, and `client.Write` or
`client.Close()` dereferences it; the datagrams written before are kept. -/
def chatSend (route : UDPAddr → Bool) (clock : Nat → Int) (c0 : peer) (buffer : List Char) :
    List peer → Nat → List Datagram × Bool
  | [], _ => ([], false)
  | p :: ps, k =>
    if DialUDP route p.addr then
      let w : List Datagram :=
        if Contains buffer "/quit".toList then
          (if !isIdle (clock k) p then [(p.addr, quitMsg c0.addr.Port)] else [])
        else
          (if !isIdle (clock k) p then [(p.addr, chatMsg c0.name buffer)] else [])
      let r := chatSend route clock c0 buffer ps (k + 1)
      (w ++ r.1, r.2)
    else ([], true)

/-- One iteration of the scanner loop of `chat`: the datagrams written for
the line `buffer` and how the iteration ends.  On an empty slice
`c.peers[1:]` panics. -/
def chatLine (route : UDPAddr → Bool) (clock : Nat → Int) (c : circle) (buffer : List Char) :
    List Datagram × Flow :=
  match c.peers with
  | [] => ([], Flow.panicked)
  | c0 :: rest =>
    let r := chatSend route clock c0 buffer rest 0
    (r.1, if r.2 then Flow.panicked
          else if Contains buffer "/quit".toList then Flow.returned else Flow.next)

/-- The inner loop of `heartbeat` over `c.peers[1:]`: a heartbeat datagram to
every peer; `true` when `client.Write` panics on a nil connection. -/
def heartbeatSend (route : UDPAddr → Bool) (c0 : peer) : List peer → List Datagram × Bool
  | [] => ([], false)
  | p :: ps =>
    if DialUDP route p.addr then
      let r := heartbeatSend route c0 ps
      ((p.addr, heartbeatMsg c0.addr.Port) :: r.1, r.2)
    else ([], true)

/-- One round of `heartbeat`, up to the sleep: the datagrams written and
whether the round panics (on an empty slice `c.peers[1:]` does). -/
def heartbeat (route : UDPAddr → Bool) (c : circle) : List Datagram × Bool :=
  match c.peers with
  | [] => ([], true)
  | c0 :: rest => heartbeatSend route c0 rest

/-- An example directory: the local peer 127.0.0.1:9001 followed by the `n`
peers 10.0.0.1:9000, 10.0.0.1:9001, .. -/
def exampleCircle (n : Nat) : circle :=
  { peers := newPeer 0 "127.0.0.1".toList 9001 ::
      (List.range n).map (fun k => newPeer 0 "10.0.0.1".toList (9000 + (k : Int)))
    name := [] }

/-- The `(host, port)` under which `peerExists` finds a peer. -/
def peer.key (p : peer) : List Char × Int := (p.addr.IP.String, p.addr.Port)

/-- No two entries of the directory have the same `(host, port)`. -/
def distinctAddrs (c : circle) : Prop := (c.peers.map peer.key).Nodup

instance (c : circle) : Decidable (distinctAddrs c) := by
  unfold distinctAddrs; infer_instance

/-! ## Evaluation of the definitions on concrete inputs -/

example : Itoa 9001 = "9001".toList := by decide
example : Itoa (-45) = "-45".toList := by decide
example : Itoa 0 = "0".toList := by decide
example : Atoi "9001".toList = 9001 := by decide
example : Atoi "-9001".toList = -9001 := by decide
example : Atoi "+7".toList = 7 := by decide
example : Atoi "".toList = 0 := by decide
example : Atoi "12a".toList = 0 := by decide
example : Atoi "99999999999999999999".toList = 9223372036854775807 := by decide
example : Atoi "-9223372036854775808".toList = -9223372036854775808 := by decide
example : Atoi "-99999999999999999999x".toList = -9223372036854775808 := by decide
example : Atoi "0000000000000000000000012".toList = 12 := by decide
example : Split "a,b,,c".toList ',' = ["a".toList, "b".toList, [], "c".toList] := by decide
example : Contains "/heartbeat,12".toList "/quit".toList = false := by decide

example : ParseIP "127.0.0.1".toList = IP.v4 127 0 0 1 := by decide
example : ParseIP "localhost".toList = IP.nil := by decide
example : ParseIP "".toList = IP.nil := by decide
example : ParseIP "1.2.3".toList = IP.nil := by decide
example : ParseIP "1.2.3.4.5".toList = IP.nil := by decide
example : ParseIP "1.2.3.256".toList = IP.nil := by decide
example : ParseIP "1.02.3.4".toList = IP.nil := by decide
example : ParseIP "1..3.4".toList = IP.nil := by decide
example : ParseIP "1.2.3.4.".toList = IP.nil := by decide
example : (IP.v4 10 0 0 255).String = "10.0.0.255".toList := by decide
example : (UDPAddr.mk (IP.v4 10 0 0 2) 9002).String = "10.0.0.2:9002".toList := by decide
example : (UDPAddr.mk IP.nil 9002).String = ":9002".toList := by decide
example : classify "bob > hi".toList = Msg.chat := by decide
example : classify "/quit,9001".toList = Msg.quit 9001 := by decide
example : classify "/heartbeat,9001".toList = Msg.heartbeat 9001 := by decide
example : classify "9001".toList = Msg.join 9001 := by decide

/-! ## Lemmas on the library functions -/

theorem digitChar_spec : ∀ d, d < 10 →
    isDigit (digitChar d) = true ∧ digitVal (digitChar d) = d := by
  decide

theorem digitChar_ne_zero : ∀ d, d < 10 → d ≠ 0 → digitChar d ≠ '0' := by
  decide

theorem isDigit_toNat {c : Char} (h : isDigit c = true) : 48 ≤ c.toNat ∧ c.toNat ≤ 57 := by
  simpa [isDigit] using h

theorem char_eq_of_toNat {c d : Char} (h : c.toNat = d.toNat) : c = d := by
  apply Char.ext
  apply UInt32.ext
  simpa [Char.toNat, UInt32.toNat] using h

theorem isDigit_ne {c d : Char} (h : isDigit c = true) (hd : d.toNat < 48 ∨ 57 < d.toNat) :
    c ≠ d := by
  intro e
  subst e
  have := isDigit_toNat h
  omega

theorem formatBits_append : ∀ fuel n acc, formatBits fuel n acc = formatBits fuel n [] ++ acc := by
  intro fuel
  induction fuel with
  | zero => intro n acc; simp [formatBits]
  | succ k ih =>
    intro n acc
    unfold formatBits
    split
    · simp
    · rw [ih (n / 10) (digitChar (n % 10) :: acc), ih (n / 10) [digitChar (n % 10)]]
      simp

theorem formatBits_succ (fuel n : Nat) :
    formatBits (fuel + 1) n [] =
      if n / 10 = 0 then [digitChar (n % 10)]
      else formatBits fuel (n / 10) [] ++ [digitChar (n % 10)] := by
  conv => lhs; unfold formatBits
  split
  · rfl
  · rw [formatBits_append]

theorem formatBits_ne_nil : ∀ fuel n, 0 < fuel → formatBits fuel n [] ≠ [] := by
  intro fuel n h
  obtain ⟨k, rfl⟩ : ∃ k, fuel = k + 1 := ⟨fuel - 1, by omega⟩
  rw [formatBits_succ]
  split <;> simp

theorem utoa_ne_nil (n : Nat) : utoa n ≠ [] := formatBits_ne_nil _ _ (by omega)

theorem formatBits_digits : ∀ fuel n, ∀ c ∈ formatBits fuel n [], isDigit c = true := by
  intro fuel
  induction fuel with
  | zero => intro n c hc; simp [formatBits] at hc
  | succ k ih =>
    intro n c hc
    rw [formatBits_succ] at hc
    have hd := (digitChar_spec (n % 10) (Nat.mod_lt _ (by decide))).1
    split at hc
    · simp at hc; subst hc; exact hd
    · simp at hc
      rcases hc with hc | hc
      · exact ih _ _ hc
      · subst hc; exact hd

theorem utoa_digits (n : Nat) : ∀ c ∈ utoa n, isDigit c = true := formatBits_digits _ _

theorem atoiLoop_append : ∀ (ds es : List Char) (a : Nat),
    atoiLoop a (ds ++ es) = (atoiLoop a ds).bind (fun m => atoiLoop m es) := by
  intro ds
  induction ds with
  | nil => intro es a; simp [atoiLoop]
  | cons c cs ih =>
    intro es a
    simp only [List.cons_append, atoiLoop]
    split
    · exact ih es _
    · rfl

theorem atoiLoop_formatBits : ∀ fuel n, n < fuel → atoiLoop 0 (formatBits fuel n []) = some n := by
  intro fuel
  induction fuel with
  | zero => intro n h; omega
  | succ k ih =>
    intro n h
    rw [formatBits_succ]
    have hd := digitChar_spec (n % 10) (Nat.mod_lt _ (by decide))
    split
    · rename_i h0
      simp only [atoiLoop, hd.1, hd.2, if_true]
      congr 1
      omega
    · rename_i h0
      rw [atoiLoop_append, ih (n / 10) (by omega)]
      simp only [Option.some_bind, atoiLoop, hd.1, hd.2, if_true]
      congr 1
      omega

theorem atoiLoop_utoa (n : Nat) : atoiLoop 0 (utoa n) = some n :=
  atoiLoop_formatBits _ _ (by omega)

theorem atoiLoop_le : ∀ (s : List Char) (a m : Nat), atoiLoop a s = some m → a ≤ m := by
  intro s
  induction s with
  | nil => intro a m h; simp [atoiLoop] at h; omega
  | cons c cs ih =>
    intro a m h
    simp only [atoiLoop] at h
    split at h
    · have := ih _ _ h
      omega
    · simp at h

theorem parseUintLoop_of_atoiLoop : ∀ (s : List Char) (a m : Nat),
    atoiLoop a s = some m → m < 2 ^ 64 → parseUintLoop a s = UintResult.ok m := by
  intro s
  induction s with
  | nil => intro a m h _; simp [atoiLoop] at h; simp [parseUintLoop, h]
  | cons c cs ih =>
    intro a m h hm
    simp only [atoiLoop] at h
    split at h
    · rename_i hc
      have hle := atoiLoop_le _ _ _ h
      have h1 : (a * 10) % 2 ^ 64 = a * 10 := Nat.mod_eq_of_lt (by omega)
      have h2 : (a * 10 + digitVal c) % 2 ^ 64 = a * 10 + digitVal c :=
        Nat.mod_eq_of_lt (by omega)
      have h3 : ¬ a ≥ (2 ^ 64 - 1) / 10 + 1 := by
        norm_num
        omega
      have h4 : ¬ (a * 10 + digitVal c < a * 10 ∨ a * 10 + digitVal c > 2 ^ 64 - 1) := by
        omega
      simp only [parseUintLoop, hc, Bool.not_true, Bool.false_eq_true, if_false, h3, h1, h2, h4]
      exact ih _ _ h hm
    · simp at h

theorem utoa_head_digit (n : Nat) : ∃ c cs, utoa n = c :: cs ∧ isDigit c = true := by
  cases h : utoa n with
  | nil => exact absurd h (utoa_ne_nil n)
  | cons c cs => exact ⟨c, cs, rfl, utoa_digits n c (by simp [h])⟩

theorem atoiFast_Itoa (i : Int) : atoiFast (Itoa i) = i := by
  obtain ⟨c, cs, hcs, hc⟩ := utoa_head_digit i.natAbs
  have hl := atoiLoop_utoa i.natAbs
  unfold Itoa
  split
  · rename_i hneg
    simp only [atoiFast, List.head?_cons, true_or, if_true, List.drop_succ_cons, List.drop_zero, hl]
    rw [hcs]
    have e : |i| = -i := abs_of_neg hneg
    simp
    omega
  · rename_i hpos
    have hm : c ≠ '-' := isDigit_ne hc (by decide)
    have hp : c ≠ '+' := isDigit_ne hc (by decide)
    rw [hcs] at hl ⊢
    have e : |i| = i := abs_of_nonneg (by omega)
    simp [atoiFast, hm, hp, hl]
    try omega

theorem ParseInt_Itoa (i : Int) (h : isInt64 i) : ParseInt (Itoa i) = i := by
  obtain ⟨c, cs, hcs, hc⟩ := utoa_head_digit i.natAbs
  have hl := atoiLoop_utoa i.natAbs
  have hb : i.natAbs ≤ 2 ^ 63 := by
    unfold isInt64 at h
    omega
  have hu : ParseUint (utoa i.natAbs) = UintResult.ok i.natAbs := by
    unfold ParseUint
    rw [if_neg (utoa_ne_nil _)]
    exact parseUintLoop_of_atoiLoop _ _ _ hl (by omega)
  unfold Itoa
  split
  · rename_i hneg
    simp only [ParseInt, List.head?_cons, or_true, if_true, List.drop_succ_cons, List.drop_zero, hu]
    have e : |i| = -i := abs_of_neg hneg
    simp
    omega
  · rename_i hpos
    have hm : c ≠ '-' := isDigit_ne hc (by decide)
    have hp : c ≠ '+' := isDigit_ne hc (by decide)
    have hlt : i.natAbs < 2 ^ 63 := by
      unfold isInt64 at h
      omega
    rw [hcs] at hu ⊢
    have e : |i| = i := abs_of_nonneg (by omega)
    simp [ParseInt, hm, hp, hu]
    omega

theorem Atoi_Itoa (i : Int) (h : isInt64 i) : Atoi (Itoa i) = i := by
  unfold Atoi
  split
  · exact atoiFast_Itoa i
  · exact ParseInt_Itoa i h

theorem startsWith_cons_ne {c d : Char} (cs ds : List Char) (h : c ≠ d) :
    startsWith (c :: cs) (d :: ds) = false := by
  simp [startsWith, h]

theorem Contains_of_not_mem {d : Char} (ds : List Char) :
    ∀ s : List Char, d ∉ s → Contains s (d :: ds) = false := by
  intro s
  induction s with
  | nil => intro _; simp [Contains]
  | cons c cs ih =>
    intro h
    simp only [List.mem_cons, not_or] at h
    simp [Contains, startsWith_cons_ne cs ds (Ne.symm h.1), ih h.2]

theorem Contains_append_of_mem (c : Char) : ∀ s t : List Char, Contains (s ++ c :: t) [c] = true := by
  intro s
  induction s with
  | nil => intro t; simp [Contains, startsWith]
  | cons a s ih => intro t; simp [Contains, ih t]

theorem Split_of_not_mem (sep : Char) : ∀ s : List Char, sep ∉ s → Split s sep = [s] := by
  intro s
  induction s with
  | nil => intro _; rfl
  | cons c cs ih =>
    intro h
    simp only [List.mem_cons, not_or] at h
    simp [Split, Ne.symm h.1, ih h.2]

theorem Split_append (sep : Char) (t : List Char) :
    ∀ s : List Char, sep ∉ s → Split (s ++ sep :: t) sep = s :: Split t sep := by
  intro s
  induction s with
  | nil => intro _; simp [Split]
  | cons c cs ih =>
    intro h
    simp only [List.mem_cons, not_or] at h
    simp [Split, Ne.symm h.1, ih h.2]

theorem Split_Join (sep : Char) : ∀ parts : List (List Char), parts ≠ [] →
    (∀ p ∈ parts, sep ∉ p) → Split (Join parts [sep]) sep = parts := by
  intro parts
  induction parts with
  | nil => intro h; exact absurd rfl h
  | cons a rest ih =>
    intro _ hs
    cases rest with
    | nil => simpa [Join] using Split_of_not_mem sep a (hs a (by simp))
    | cons b rest =>
      have := ih (by simp) (fun p hp => hs p (List.mem_cons_of_mem _ hp))
      simp only [Join, List.append_assoc, List.singleton_append]
      rw [Split_append sep _ a (hs a (by simp)), this]

theorem mem_Join {c : Char} (sep : List Char) : ∀ parts : List (List Char),
    ∀ p ∈ parts, c ∈ p → c ∈ Join parts sep := by
  intro parts
  induction parts with
  | nil => intro p hp; simp at hp
  | cons a rest ih =>
    intro p hp hc
    cases rest with
    | nil =>
      simp at hp
      subst hp
      simpa [Join] using hc
    | cons b rest =>
      simp only [Join, List.mem_append]
      rcases List.mem_cons.1 hp with rfl | hp
      · exact Or.inl (Or.inl hc)
      · exact Or.inr (ih p hp hc)

theorem utoa_not_mem (n : Nat) (d : Char) (hd : d.toNat < 48 ∨ 57 < d.toNat) : d ∉ utoa n := by
  intro h
  exact isDigit_ne (utoa_digits n d h) hd rfl

theorem Itoa_not_mem (i : Int) (d : Char) (hd : d.toNat < 45 ∨ 57 < d.toNat ∨ d.toNat = 46 ∨ d.toNat = 47) :
    d ∉ Itoa i := by
  have hu : d ∉ utoa i.natAbs := utoa_not_mem _ d (by omega)
  unfold Itoa
  split
  · simp only [List.mem_cons, not_or]
    refine ⟨?_, hu⟩
    intro e
    subst e
    revert hd
    decide
  · exact hu

/-! ### `net.ParseIP` inverts `IP.String()` -/

theorem isDigit_zero_of_val {c : Char} (h : isDigit c = true) (hv : digitVal c = 0) : c = '0' := by
  have := isDigit_toNat h
  apply char_eq_of_toNat
  have e : ('0' : Char).toNat = 48 := by decide
  unfold digitVal at hv
  omega

theorem formatBits_head : ∀ fuel n, n < fuel → 0 < n →
    (formatBits fuel n []).head? ≠ some '0' := by
  intro fuel
  induction fuel with
  | zero => intro n h; omega
  | succ k ih =>
    intro n h hn
    rw [formatBits_succ]
    split
    · rename_i h0
      have : n % 10 ≠ 0 := by omega
      simpa using digitChar_ne_zero (n % 10) (Nat.mod_lt _ (by decide)) this
    · rename_i h0
      have hne := formatBits_ne_nil k (n / 10) (by omega)
      have := ih (n / 10) (by omega) (by omega)
      cases hf : formatBits k (n / 10) [] with
      | nil => exact absurd hf hne
      | cons a as => rw [hf] at this; simpa using this

theorem utoa_zero : utoa 0 = ['0'] := by decide

theorem utoa_head (n : Nat) : (utoa n).length ≤ 1 ∨ (utoa n).head? ≠ some '0' := by
  rcases Nat.eq_zero_or_pos n with h | h
  · subst h; left; decide
  · right; exact formatBits_head _ _ (by omega) h

/-- A block of digits read by `parseIPv4Fields`: the octet is accumulated and
the parser goes on behind the block, the previous byte being a digit. -/
theorem parseIPv4Fields_digits (fields : List Nat) (rest : List Char) :
    ∀ (ds : List Char) (prev : Option Char) (val digLen v : Nat),
      ds ≠ [] → (∀ c ∈ ds, isDigit c = true) → atoiLoop val ds = some v → v ≤ 255 →
      (digLen = 1 → val ≠ 0) →
      (digLen = 0 → val = 0 ∧ (ds.length ≤ 1 ∨ ds.head? ≠ some '0')) →
      ∃ q dl, isDigit q = true ∧
        parseIPv4Fields prev val digLen fields (ds ++ rest) =
          parseIPv4Fields (some q) v dl fields rest := by
  intro ds
  induction ds with
  | nil => intro _ _ _ _ h; exact absurd rfl h
  | cons c cs ih =>
    intro prev val digLen v _ hdig hv hle h1 h0
    have hc : isDigit c = true := hdig c (by simp)
    simp only [atoiLoop, hc, if_true] at hv
    have hmono := atoiLoop_le _ _ _ hv
    have hstep : parseIPv4Fields prev val digLen fields (c :: cs ++ rest) =
        parseIPv4Fields (some c) (val * 10 + digitVal c) (digLen + 1) fields (cs ++ rest) := by
      have a1 : ¬ (digLen = 1 ∧ val = 0) := fun h => h1 h.1 h.2
      have a2 : ¬ (val * 10 + digitVal c > 255) := by omega
      rw [List.cons_append]
      simp only [parseIPv4Fields, hc, if_true, a1, a2, if_false]
    cases cs with
    | nil =>
      simp only [atoiLoop] at hv
      cases hv
      exact ⟨c, digLen + 1, hc, by simpa using hstep⟩
    | cons e es =>
      have := ih (some c) (val * 10 + digitVal c) (digLen + 1) v (by simp)
        (fun x hx => hdig x (List.mem_cons_of_mem _ hx)) hv hle
        (by
          intro hd hz
          have hd0 : digLen = 0 := by omega
          have hv0 := (h0 hd0).1
          have hcz : c = '0' := isDigit_zero_of_val hc (by omega)
          rcases (h0 hd0).2 with hl | hh
          · simp at hl
          · exact hh (by simp [hcz]))
        (by intro hd; omega)
      obtain ⟨q, dl, hq, he⟩ := this
      exact ⟨q, dl, hq, by rw [hstep]; exact he⟩

theorem parseIPv4Fields_utoa (fields : List Nat) (rest : List Char) (prev : Option Char)
    (b : Fin 256) :
    ∃ q dl, isDigit q = true ∧
      parseIPv4Fields prev 0 0 fields (utoa b.val ++ rest) =
        parseIPv4Fields (some q) b.val dl fields rest :=
  parseIPv4Fields_digits fields rest (utoa b.val) prev 0 0 b.val (utoa_ne_nil _)
    (utoa_digits _) (atoiLoop_utoa _) (by omega) (by omega) (fun _ => ⟨rfl, utoa_head _⟩)

theorem parseIPv4Fields_dot (q : Char) (hq : isDigit q = true) (val dl : Nat)
    (fields : List Nat) (hf : fields.length ≠ 3) (rest : List Char) (hr : rest ≠ []) :
    parseIPv4Fields (some q) val dl fields ('.' :: rest) =
      parseIPv4Fields (some '.') 0 0 (fields ++ [val]) rest := by
  have hq2 : q ≠ '.' := isDigit_ne hq (by decide)
  have hd : isDigit '.' = false := by decide
  simp [parseIPv4Fields, hd, hr, hf, hq2]

theorem find_sep_utoa (n : Nat) (rest : List Char) :
    (utoa n ++ '.' :: rest).find? (fun c => decide (c = '.') || decide (c = ':') || decide (c = '%'))
      = some '.' := by
  have h : ∀ ds : List Char, (∀ c ∈ ds, isDigit c = true) →
      (ds ++ '.' :: rest).find? (fun c => decide (c = '.') || decide (c = ':') || decide (c = '%'))
        = some '.' := by
    intro ds
    induction ds with
    | nil => intro _; simp
    | cons c cs ih =>
      intro hd
      have hc := hd c (by simp)
      have e1 : c ≠ '.' := isDigit_ne hc (by decide)
      have e2 : c ≠ ':' := isDigit_ne hc (by decide)
      have e3 : c ≠ '%' := isDigit_ne hc (by decide)
      simp [List.find?, e1, e2, e3, ih (fun x hx => hd x (List.mem_cons_of_mem _ hx))]
  exact h _ (utoa_digits n)

theorem Fin_ofNat_val (a : Fin 256) : (Fin.ofNat a.val : Fin 256) = a := by
  apply Fin.ext
  simp [Fin.ofNat, Nat.mod_eq_of_lt a.isLt]

theorem ParseIP_String (ip : IP) : ParseIP ip.String = ip := by
  cases ip with
  | nil => decide
  | v4 a b c d =>
    have hfind := find_sep_utoa a.val (utoa b.val ++ '.' :: utoa c.val ++ '.' :: utoa d.val)
    have hnb : ∀ (n : Nat) (r : List Char), utoa n ++ r ≠ [] := by
      intro n r h
      exact utoa_ne_nil n (List.append_eq_nil.1 h).1
    obtain ⟨q1, l1, hq1, e1⟩ := parseIPv4Fields_utoa []
      ('.' :: (utoa b.val ++ '.' :: (utoa c.val ++ '.' :: utoa d.val))) none a
    obtain ⟨q2, l2, hq2, e2⟩ := parseIPv4Fields_utoa [a.val]
      ('.' :: (utoa c.val ++ '.' :: utoa d.val)) (some '.') b
    obtain ⟨q3, l3, hq3, e3⟩ := parseIPv4Fields_utoa [a.val, b.val]
      ('.' :: utoa d.val) (some '.') c
    obtain ⟨q4, l4, hq4, e4⟩ := parseIPv4Fields_utoa [a.val, b.val, c.val] [] (some '.') d
    have hparse : parseIPv4Fields none 0 0 []
        (utoa a.val ++ '.' :: (utoa b.val ++ '.' :: (utoa c.val ++ '.' :: utoa d.val)))
        = some [a.val, b.val, c.val, d.val] := by
      rw [e1, parseIPv4Fields_dot q1 hq1 _ _ [] (by simp) _ (hnb _ _)]
      rw [List.nil_append, e2, parseIPv4Fields_dot q2 hq2 _ _ _ (by simp) _ (hnb _ _)]
      rw [List.singleton_append, e3,
        parseIPv4Fields_dot q3 hq3 _ _ _ (by simp) _ (utoa_ne_nil _)]
      rw [List.append_nil] at e4
      simp only [List.cons_append, List.nil_append]
      rw [e4]
      simp [parseIPv4Fields]
    simp only [IP.String, List.append_assoc, List.cons_append] at hfind ⊢
    simp only [ParseIP, hfind, hparse, if_true, Fin_ofNat_val]

theorem ParseIP_ipEmptyString (ip : IP) : ParseIP (ipEmptyString ip) = ip := by
  cases ip with
  | nil => decide
  | v4 a b c d => exact ParseIP_String (IP.v4 a b c d)

theorem colon_not_mem_ipEmptyString (ip : IP) : ':' ∉ ipEmptyString ip := by
  cases ip with
  | nil => simp [ipEmptyString]
  | v4 a b c d =>
    have h : ∀ n, ':' ∉ utoa n := fun n => utoa_not_mem n ':' (by decide)
    simp [ipEmptyString, IP.String, h]

theorem comma_not_mem_ipEmptyString (ip : IP) : ',' ∉ ipEmptyString ip := by
  cases ip with
  | nil => simp [ipEmptyString]
  | v4 a b c d =>
    have h : ∀ n, ',' ∉ utoa n := fun n => utoa_not_mem n ',' (by decide)
    simp [ipEmptyString, IP.String, h]

theorem UDPAddr_String_eq (a : UDPAddr) : a.String = ipEmptyString a.IP ++ ':' :: Itoa a.Port := by
  simp [UDPAddr.String, JoinHostPort, colon_not_mem_ipEmptyString]

/-! ## Lemmas on the directory -/

theorem peerIndex_eq_none (ip : List Char) (port : Int) :
    ∀ l : List peer, peerIndex ip port l = none ↔ ∀ p ∈ l, p.key ≠ (ip, port) := by
  intro l
  induction l with
  | nil => simp [peerIndex]
  | cons x xs ih =>
    by_cases hx : x.addr.IP.String = ip ∧ x.addr.Port = port
    · simp [peerIndex, hx, peer.key]
    · have hk : x.key ≠ (ip, port) := by
        intro e
        apply hx
        simpa [peer.key] using e
      simp [peerIndex, hx, ih, hk]

theorem peerIndex_first (ip : List Char) (port : Int) (x : peer) (post : List peer)
    (hx : x.key = (ip, port)) :
    ∀ pre : List peer, (∀ p ∈ pre, p.key ≠ (ip, port)) →
      peerIndex ip port (pre ++ x :: post) = some pre.length := by
  intro pre
  induction pre with
  | nil =>
    intro _
    have : x.addr.IP.String = ip ∧ x.addr.Port = port := by simpa [peer.key] using hx
    simp [peerIndex, this]
  | cons a as ih =>
    intro h
    have ha : ¬ (a.addr.IP.String = ip ∧ a.addr.Port = port) := by
      intro e
      apply h a (by simp)
      simpa [peer.key] using e
    simp [peerIndex, ha, ih (fun p hp => h p (List.mem_cons_of_mem _ hp))]

theorem peerIndex_eq_some (ip : List Char) (port : Int) :
    ∀ (l : List peer) (i : Nat), peerIndex ip port l = some i →
      ∃ pre x post, l = pre ++ x :: post ∧ pre.length = i ∧ x.key = (ip, port) ∧
        ∀ p ∈ pre, p.key ≠ (ip, port) := by
  intro l
  induction l with
  | nil => intro i h; simp [peerIndex] at h
  | cons a as ih =>
    intro i h
    by_cases ha : a.addr.IP.String = ip ∧ a.addr.Port = port
    · simp [peerIndex, ha] at h
      subst h
      exact ⟨[], a, as, rfl, rfl, by simpa [peer.key] using ha, by simp⟩
    · simp only [peerIndex, ha, if_false] at h
      cases hj : peerIndex ip port as with
      | none => rw [hj] at h; simp at h
      | some j =>
      rw [hj] at h
      injection h with h
      subst h
      obtain ⟨pre, x, post, rfl, rfl, hx, hpre⟩ := ih j hj
      refine ⟨a :: pre, x, post, rfl, rfl, hx, ?_⟩
      intro p hp
      rcases List.mem_cons.1 hp with rfl | hp
      · intro e
        apply ha
        simpa [peer.key] using e
      · exact hpre p hp

theorem removeAt_append (pre : List peer) (x : peer) (post : List peer) :
    removeAt (pre ++ x :: post) pre.length = pre ++ post := by
  unfold removeAt
  have h1 : (pre ++ x :: post).take pre.length = pre := by simp
  have h2 : (pre ++ x :: post).drop (pre.length + 1) = post := by
    rw [List.drop_append_eq_append_drop]
    simp
  rw [h1, h2]
  have h3 : (pre ++ x :: post).length - 1 = (pre ++ post).length := by simp
  rw [h3, List.take_append_eq_append_take]
  simp

theorem modify_append (f : peer → peer) (x : peer) (post : List peer) :
    ∀ pre : List peer, (pre ++ x :: post).modify f pre.length = pre ++ f x :: post := by
  intro pre
  induction pre with
  | nil => simp
  | cons a as ih => simp [ih]

theorem key_ne_of_nodup {pre post : List peer} {x : peer}
    (h : ((pre ++ x :: post).map peer.key).Nodup) :
    ∀ p ∈ pre ++ post, p.key ≠ x.key := by
  intro p hp e
  simp only [List.map_append, List.map_cons] at h
  rw [List.nodup_append] at h
  obtain ⟨_, h2, h3⟩ := h
  rcases List.mem_append.1 hp with hp | hp
  · exact h3 (List.mem_map_of_mem _ hp) (by rw [e]; simp)
  · exact (List.nodup_cons.1 h2).1 (by rw [← e]; exact List.mem_map_of_mem _ hp)

theorem key_newPeer (now : Int) (ip : IP) (port : Int) :
    (newPeer now ip.String port).key = (ip.String, port) := by
  simp [newPeer, peer.key, ParseIP_String]

/-! ## Lemmas on the classification of the program's own datagrams -/

theorem classify_chatMsg (name body : List Char) : classify (chatMsg name body) = Msg.chat := by
  have e : chatMsg name body = (name ++ [' ']) ++ '>' :: (' ' :: body) := by
    simp [chatMsg]
  have h : Contains (chatMsg name body) ['>'] = true := by
    rw [e]
    exact Contains_append_of_mem '>' _ _
  simp [classify, h]

theorem not_gt_Itoa (i : Int) (sub : List Char) : Contains (Itoa i) ('>' :: sub) = false :=
  Contains_of_not_mem _ _ (Itoa_not_mem i '>' (by decide))

theorem not_slash_Itoa (i : Int) (sub : List Char) : Contains (Itoa i) ('/' :: sub) = false :=
  Contains_of_not_mem _ _ (Itoa_not_mem i '/' (by decide))

theorem comma_not_mem_Itoa (i : Int) : ',' ∉ Itoa i := Itoa_not_mem i ',' (by decide)

theorem colon_not_mem_Itoa (i : Int) : ':' ∉ Itoa i := Itoa_not_mem i ':' (by decide)

theorem classify_quitMsg (port : Int) (h : isInt64 port) :
    classify (quitMsg port) = Msg.quit port := by
  have e : quitMsg port = '/' :: 'q' :: 'u' :: 'i' :: 't' :: ',' :: Itoa port := rfl
  have h1 : Contains (quitMsg port) ['>'] = false := by
    apply Contains_of_not_mem
    rw [e]
    simp only [List.mem_cons, not_or]
    exact ⟨by decide, by decide, by decide, by decide, by decide, by decide,
      Itoa_not_mem port '>' (by decide)⟩
  have h2 : Contains (quitMsg port) ['/', 'q', 'u', 'i', 't'] = true := by
    rw [e]
    simp [Contains, startsWith]
  have h3 : Split (quitMsg port) ',' = [['/', 'q', 'u', 'i', 't'], Itoa port] := by
    have := Split_append ',' (Itoa port) "/quit".toList (by decide)
    rw [Split_of_not_mem ',' _ (comma_not_mem_Itoa port)] at this
    exact this
  simp [classify, h1, h2, h3, Atoi_Itoa port h]

theorem classify_heartbeatMsg (port : Int) (h : isInt64 port) :
    classify (heartbeatMsg port) = Msg.heartbeat port := by
  have e : heartbeatMsg port =
      '/' :: 'h' :: 'e' :: 'a' :: 'r' :: 't' :: 'b' :: 'e' :: 'a' :: 't' :: ',' :: Itoa port := rfl
  have h1 : Contains (heartbeatMsg port) ['>'] = false := by
    apply Contains_of_not_mem
    rw [e]
    simp only [List.mem_cons, not_or]
    exact ⟨by decide, by decide, by decide, by decide, by decide, by decide, by decide,
      by decide, by decide, by decide, by decide, Itoa_not_mem port '>' (by decide)⟩
  have h2 : Contains (heartbeatMsg port) ['/', 'q', 'u', 'i', 't'] = false := by
    have t : Contains ('h' :: 'e' :: 'a' :: 'r' :: 't' :: 'b' :: 'e' :: 'a' :: 't' :: ',' :: Itoa port)
        ['/', 'q', 'u', 'i', 't'] = false := by
      apply Contains_of_not_mem
      simp only [List.mem_cons, not_or]
      exact ⟨by decide, by decide, by decide, by decide, by decide, by decide, by decide,
        by decide, by decide, by decide, Itoa_not_mem port '/' (by decide)⟩
    rw [e]
    have s : startsWith ('/' :: 'h' :: 'e' :: 'a' :: 'r' :: 't' :: 'b' :: 'e' :: 'a' :: 't' :: ','
        :: Itoa port) ['/', 'q', 'u', 'i', 't'] = false := by
      simp [startsWith]
    rw [Contains, s, t]
    rfl
  have h2b : Contains (heartbeatMsg port) ['/', 'h', 'e', 'a', 'r', 't', 'b', 'e', 'a', 't'] = true := by
    rw [e]
    simp [Contains, startsWith]
  have h3 : Split (heartbeatMsg port) ',' =
      [['/', 'h', 'e', 'a', 'r', 't', 'b', 'e', 'a', 't'], Itoa port] := by
    have := Split_append ',' (Itoa port) "/heartbeat".toList (by decide)
    rw [Split_of_not_mem ',' _ (comma_not_mem_Itoa port)] at this
    exact this
  simp [classify, h1, h2, h2b, h3, Atoi_Itoa port h]

theorem classify_joinMsg (port : Int) (h : isInt64 port) :
    classify (joinMsg port) = Msg.join port := by
  have h1 : Contains (Itoa port) ['>'] = false := not_gt_Itoa port []
  have h2 : Contains (Itoa port) ['/', 'q', 'u', 'i', 't'] = false := not_slash_Itoa port _
  have h3 : Contains (Itoa port) ['/', 'h', 'e', 'a', 'r', 't', 'b', 'e', 'a', 't'] = false := not_slash_Itoa port _
  simp [classify, joinMsg, h1, h2, h3, Atoi_Itoa port h]

/-! ### Length of the program's datagrams -/

theorem formatBits_length : ∀ fuel n k, n < 10 ^ (k + 1) →
    (formatBits fuel n []).length ≤ k + 1 := by
  intro fuel
  induction fuel with
  | zero => intro n k _; simp [formatBits]
  | succ f ih =>
    intro n k h
    rw [formatBits_succ]
    split
    · simp
    · rename_i h0
      cases k with
      | zero => omega
      | succ j =>
        have hj : n / 10 < 10 ^ (j + 1) := by
          rw [Nat.div_lt_iff_lt_mul (by decide)]
          rw [pow_succ] at h
          exact h
        have := ih (n / 10) j hj
        simp only [List.length_append, List.length_singleton]
        omega

theorem Itoa_length (i : Int) (h : isInt64 i) : (Itoa i).length ≤ 20 := by
  have hb : i.natAbs < 10 ^ (18 + 1) := by
    unfold isInt64 at h
    omega
  have := formatBits_length (i.natAbs + 1) i.natAbs 18 hb
  unfold Itoa utoa
  split
  · simp only [List.length_cons]
    omega
  · omega

theorem readBuf_of_le (s : List Char) (h : s.length ≤ 1024) : readBuf s = s :=
  List.take_of_length_le h

theorem readBuf_quitMsg (port : Int) (h : isInt64 port) : readBuf (quitMsg port) = quitMsg port := by
  apply readBuf_of_le
  have := Itoa_length port h
  have e : (quitMsg port).length = 6 + (Itoa port).length := by
    simp [quitMsg]
    omega
  omega

theorem readBuf_heartbeatMsg (port : Int) (h : isInt64 port) :
    readBuf (heartbeatMsg port) = heartbeatMsg port := by
  apply readBuf_of_le
  have := Itoa_length port h
  have e : (heartbeatMsg port).length = 11 + (Itoa port).length := by
    simp [heartbeatMsg]
    omega
  omega

theorem readBuf_joinMsg (port : Int) (h : isInt64 port) : readBuf (joinMsg port) = joinMsg port := by
  apply readBuf_of_le
  have := Itoa_length port h
  unfold joinMsg
  omega

theorem Contains_readBuf_chatMsg (name body : List Char) (h : name.length ≤ 1022) :
    Contains (readBuf (chatMsg name body)) ['>'] = true := by
  have e : chatMsg name body = (name ++ [' ', '>']) ++ (' ' :: body) := by
    simp [chatMsg]
  have hl : (name ++ [' ', '>']).length ≤ 1024 := by
    simp
    omega
  rw [e, readBuf, List.take_append_eq_append_take, List.take_of_length_le hl]
  have e2 : name ++ [' ', '>'] ++ List.take (1024 - (name ++ [' ', '>']).length) (' ' :: body) =
      (name ++ [' ']) ++ '>' :: List.take (1024 - (name ++ [' ', '>']).length) (' ' :: body) := by
    simp
  rw [e2]
  exact Contains_append_of_mem '>' _ _

/-! ## The handler on a quit, a heartbeat and a connect -/

theorem handle_quit (now : Int) (c : circle) (remote : UDPAddr) (buff : List Char) (port : Int)
    (hb : classify buff = Msg.quit port) (pre post : List peer) (x : peer)
    (hc : c.peers = pre ++ x :: post) (hx : x.key = (remote.IP.String, port))
    (hpre : ∀ p ∈ pre, p.key ≠ (remote.IP.String, port)) :
    handle now c remote buff = ({ c with peers := pre ++ post }, []) := by
  have hi : peerExists c remote.IP.String port = some pre.length := by
    unfold peerExists
    rw [hc]
    exact peerIndex_first _ _ x post hx pre hpre
  simp only [handle, hb, hi]
  rw [hc, removeAt_append]

theorem handle_heartbeat (now : Int) (c : circle) (remote : UDPAddr) (buff : List Char)
    (port : Int) (hb : classify buff = Msg.heartbeat port) (pre post : List peer) (x : peer)
    (hc : c.peers = pre ++ x :: post) (hx : x.key = (remote.IP.String, port))
    (hpre : ∀ p ∈ pre, p.key ≠ (remote.IP.String, port)) :
    handle now c remote buff = ({ c with peers := pre ++ { x with time := now } :: post }, []) := by
  have hi : peerExists c remote.IP.String port = some pre.length := by
    unfold peerExists
    rw [hc]
    exact peerIndex_first _ _ x post hx pre hpre
  simp only [handle, hb, hi]
  rw [hc, modify_append]

theorem handle_absent (now : Int) (c : circle) (remote : UDPAddr) (buff : List Char)
    (port : Int) (hb : classify buff = Msg.quit port ∨ classify buff = Msg.heartbeat port)
    (hn : peerExists c remote.IP.String port = none) :
    handle now c remote buff = (c, []) := by
  rcases hb with hb | hb <;> simp only [handle, hb, hn]

/-! ## Settled claims -/

/-- C1: in a directory whose entries have pairwise distinct (host, port) and
which holds an entry `x` at (h, p), the handler processing the datagram
`/quit,<p>` received from host h yields the same directory with exactly `x`
removed: the entries before and after it are kept, unchanged and in order,
and nothing is written to the socket. -/
theorem leave_removes_exactly_one (now : Int) (c : circle) (remote : UDPAddr) (p : Int)
    (pre post : List peer) (x : peer) (hd : distinctAddrs c)
    (hc : c.peers = pre ++ x :: post) (hx : x.key = (remote.IP.String, p)) (hp : isInt64 p) :
    listen now c remote (quitMsg p) = ({ c with peers := pre ++ post }, []) := by
  rw [listen, readBuf_quitMsg p hp]
  apply handle_quit now c remote _ p (classify_quitMsg p hp) pre post x hc hx
  intro q hq
  unfold distinctAddrs at hd
  rw [hc] at hd
  rw [← hx]
  exact key_ne_of_nodup hd q (List.mem_append_left _ hq)

/-- Witness of C1: peers A at 10.0.0.1:1111 and B at 10.0.0.2:2222 behind
the local peer; a quit for port 1111 from 10.0.0.1 leaves the local peer and
B. -/
theorem leave_removes_exactly_one_witness :
    distinctAddrs
        { peers := [newPeer 0 "127.0.0.1".toList 9001, newPeer 5 "10.0.0.1".toList 1111,
            newPeer 7 "10.0.0.2".toList 2222], name := "local".toList } ∧
      isInt64 1111 ∧
      listen 9
          { peers := [newPeer 0 "127.0.0.1".toList 9001, newPeer 5 "10.0.0.1".toList 1111,
              newPeer 7 "10.0.0.2".toList 2222], name := "local".toList }
          { IP := IP.v4 10 0 0 1, Port := 40000 } (quitMsg 1111) =
        ({ peers := [newPeer 0 "127.0.0.1".toList 9001, newPeer 7 "10.0.0.2".toList 2222],
           name := "local".toList }, []) :=
  ⟨by decide, by decide,
    leave_removes_exactly_one 9
      { peers := [newPeer 0 "127.0.0.1".toList 9001, newPeer 5 "10.0.0.1".toList 1111,
          newPeer 7 "10.0.0.2".toList 2222], name := "local".toList }
      { IP := IP.v4 10 0 0 1, Port := 40000 } 1111
      [newPeer 0 "127.0.0.1".toList 9001] [newPeer 7 "10.0.0.2".toList 2222]
      (newPeer 5 "10.0.0.1".toList 1111) (by decide) rfl (by decide) (by decide)⟩

theorem isIdle_iff (now : Int) (p : peer) :
    isIdle now p = true ↔ now - p.time > 600000000000 := by
  unfold isIdle Since Minute
  simp only [decide_eq_true_eq]
  split
  · constructor
    · intro _; omega
    · intro _; norm_num
  · split
    · constructor
      · intro h; norm_num at h
      · intro _; omega
    · norm_num

/-- C9: `isIdle` holds exactly when more than 10 minutes (600000000000 ns)
lie between the peer's time and the clock reading; it is false for a peer
whose time is the clock reading, false when exactly 10 minutes have elapsed,
and false, at the instant of receipt, for the peer a heartbeat datagram has
just refreshed. -/
theorem isIdle_spec (now : Int) (p : peer) :
    (isIdle now p = true ↔ now - p.time > 600000000000) ∧
      isIdle now { p with time := now } = false ∧
      isIdle (p.time + 600000000000) p = false ∧
      ∀ (c : circle) (remote : UDPAddr) (port : Int) (j : Nat), isInt64 port →
        peerExists c remote.IP.String port = some j →
        ∃ q, (listen now c remote (heartbeatMsg port)).1.peers[j]? = some q ∧
          q.key = (remote.IP.String, port) ∧ q.time = now ∧ isIdle now q = false := by
  refine ⟨isIdle_iff now p, ?_, ?_, ?_⟩
  · rw [Bool.eq_false_iff]
    intro h
    have := (isIdle_iff _ _).1 h
    simp at this
  · rw [Bool.eq_false_iff]
    intro h
    have := (isIdle_iff _ _).1 h
    simp at this
  · intro c remote port j hport hj
    obtain ⟨pre, x, post, hc, hlen, hx, hpre⟩ := peerIndex_eq_some _ _ _ _ hj
    rw [listen, readBuf_heartbeatMsg port hport,
      handle_heartbeat now c remote _ port (classify_heartbeatMsg port hport) pre post x hc hx hpre]
    refine ⟨{ x with time := now }, ?_, hx, rfl, ?_⟩
    · subst hlen
      simp only
      rw [List.getElem?_append_right (Nat.le_refl _)]
      simp
    · rw [Bool.eq_false_iff]
      intro h
      have := (isIdle_iff _ _).1 h
      simp at this

/-- Witness of C9: a peer last seen at time 0, refreshed at time 10^12 by a
heartbeat for port 1111 from 10.0.0.1. -/
theorem isIdle_spec_witness :
    isInt64 1111 ∧
      ∃ q, (listen 1000000000000
          { peers := [newPeer 0 "127.0.0.1".toList 9001, newPeer 0 "10.0.0.1".toList 1111],
            name := "local".toList }
          { IP := IP.v4 10 0 0 1, Port := 40000 } (heartbeatMsg 1111)).1.peers[1]? = some q ∧
        q.key = ((IP.v4 10 0 0 1).String, 1111) ∧ q.time = 1000000000000 ∧
        isIdle 1000000000000 q = false :=
  ⟨by decide,
    (isIdle_spec 1000000000000 (newPeer 0 "10.0.0.1".toList 1111)).2.2.2
      { peers := [newPeer 0 "127.0.0.1".toList 9001, newPeer 0 "10.0.0.1".toList 1111],
        name := "local".toList }
      { IP := IP.v4 10 0 0 1, Port := 40000 } 1111 1 (by decide) (by decide)⟩

theorem handle_idempotent (now : Int) (c : circle) (remote : UDPAddr) (buff : List Char)
    (hd : distinctAddrs c) :
    (handle now (handle now c remote buff).1 remote buff).1 = (handle now c remote buff).1 := by
  cases hb : classify buff with
  | chat => simp [handle, hb]
  | quit port =>
    cases hi : peerExists c remote.IP.String port with
    | none =>
      rw [handle_absent now c remote buff port (Or.inl hb) hi]
      simp only
      rw [handle_absent now c remote buff port (Or.inl hb) hi]
    | some i =>
      obtain ⟨pre, x, post, hc, _, hx, hpre⟩ := peerIndex_eq_some _ _ _ _ hi
      rw [handle_quit now c remote buff port hb pre post x hc hx hpre]
      simp only
      have hn : peerExists { c with peers := pre ++ post } remote.IP.String port = none := by
        unfold peerExists
        rw [peerIndex_eq_none]
        unfold distinctAddrs at hd
        rw [hc] at hd
        rw [← hx]
        exact key_ne_of_nodup hd
      rw [handle_absent now _ remote buff port (Or.inl hb) hn]
  | heartbeat port =>
    cases hi : peerExists c remote.IP.String port with
    | none =>
      rw [handle_absent now c remote buff port (Or.inr hb) hi]
      simp only
      rw [handle_absent now c remote buff port (Or.inr hb) hi]
    | some i =>
      obtain ⟨pre, x, post, hc, _, hx, hpre⟩ := peerIndex_eq_some _ _ _ _ hi
      rw [handle_heartbeat now c remote buff port hb pre post x hc hx hpre]
      simp only
      rw [handle_heartbeat now _ remote buff port hb pre post { x with time := now } rfl hx hpre]
  | join port =>
    cases hi : peerExists c remote.IP.String port with
    | none =>
      have hfound : peerExists { c with peers := c.peers ++ [newPeer now remote.IP.String port] }
          remote.IP.String port = some c.peers.length := by
        unfold peerExists
        exact peerIndex_first _ _ _ [] (key_newPeer now remote.IP port) c.peers
          ((peerIndex_eq_none _ _ _).1 hi)
      simp [handle, hb, hi, hfound]
    | some i => simp [handle, hb, hi]

/-- C10: with pairwise distinct addresses in the directory, any sender, any
payload and one clock reading, the handler processing the same datagram a
second time leaves the directory (entries, order, times) as the first
processing left it. -/
theorem listen_idempotent (now : Int) (c : circle) (remote : UDPAddr) (datagram : List Char)
    (hd : distinctAddrs c) :
    (listen now (listen now c remote datagram).1 remote datagram).1 =
      (listen now c remote datagram).1 :=
  handle_idempotent now c remote (readBuf datagram) hd

/-- Witness of C10: a connect announcing port 9002 from 10.0.0.2, processed
twice by a node that knows only itself. -/
theorem listen_idempotent_witness :
    distinctAddrs { peers := [newPeer 0 "127.0.0.1".toList 9001], name := "local".toList } ∧
      (listen 3 (listen 3 { peers := [newPeer 0 "127.0.0.1".toList 9001], name := "local".toList }
          { IP := IP.v4 10 0 0 2, Port := 40000 } (joinMsg 9002)).1
          { IP := IP.v4 10 0 0 2, Port := 40000 } (joinMsg 9002)).1 =
        (listen 3 { peers := [newPeer 0 "127.0.0.1".toList 9001], name := "local".toList }
          { IP := IP.v4 10 0 0 2, Port := 40000 } (joinMsg 9002)).1 :=
  ⟨by decide,
    listen_idempotent 3 { peers := [newPeer 0 "127.0.0.1".toList 9001], name := "local".toList }
      { IP := IP.v4 10 0 0 2, Port := 40000 } (joinMsg 9002) (by decide)⟩

/-- C7 as amended: every datagram built by the program's own encoders and
read whole or cut by the 1024-byte buffer of the handler is classified as
its own kind, and the port it carries is read back, when the display name
has at most 1022 bytes: the chat message `name > body` (the empty name
included, any body) takes the chat branch; `/quit,<port>`,
`/heartbeat,<port>` and the bare decimal port fit the buffer and take the
quit, heartbeat and connect branches with that same port. -/
theorem encoders_classified (name body : List Char) (port : Int) (hn : name.length ≤ 1022)
    (h : isInt64 port) :
    classify (readBuf (chatMsg name body)) = Msg.chat ∧
      classify (readBuf (quitMsg port)) = Msg.quit port ∧
      classify (readBuf (heartbeatMsg port)) = Msg.heartbeat port ∧
      classify (readBuf (joinMsg port)) = Msg.join port := by
  refine ⟨?_, ?_, ?_, ?_⟩
  · simp [classify, Contains_readBuf_chatMsg name body hn]
  · rw [readBuf_quitMsg port h]; exact classify_quitMsg port h
  · rw [readBuf_heartbeatMsg port h]; exact classify_heartbeatMsg port h
  · rw [readBuf_joinMsg port h]; exact classify_joinMsg port h

/-- Witness of C7: the empty display name, the body `hi`, the port 9001. -/
theorem encoders_classified_witness :
    ([] : List Char).length ≤ 1022 ∧ isInt64 9001 ∧
      classify (readBuf (chatMsg [] "hi".toList)) = Msg.chat ∧
      classify (readBuf (quitMsg 9001)) = Msg.quit 9001 ∧
      classify (readBuf (heartbeatMsg 9001)) = Msg.heartbeat 9001 ∧
      classify (readBuf (joinMsg 9001)) = Msg.join 9001 :=
  ⟨by decide, by decide, encoders_classified [] "hi".toList 9001 (by decide) (by decide)⟩

set_option maxRecDepth 100000 in
/-- Counterexample to C7 as stated: with a display name of 1023 bytes `a`
the chat message `name > hi` is cut by the 1024-byte read before its `>`;
the handler takes the connect branch with port 0 and adds the sender as a
peer at port 0. -/
theorem encoders_classified_counterexample :
    classify (readBuf (chatMsg (List.replicate 1023 'a') "hi".toList)) ≠ Msg.chat ∧
      classify (readBuf (chatMsg (List.replicate 1023 'a') "hi".toList)) = Msg.join 0 ∧
      (listen 3 { peers := [newPeer 0 "127.0.0.1".toList 9001], name := "local".toList }
          { IP := IP.v4 10 0 0 2, Port := 40000 }
          (chatMsg (List.replicate 1023 'a') "hi".toList)).1 =
        { peers := [newPeer 0 "127.0.0.1".toList 9001, newPeer 3 "10.0.0.2".toList 0],
          name := "local".toList } := by
  decide

theorem peerEntry_String (a : UDPAddr) (h : isInt64 a.Port) :
    peerEntry a.String = (ipEmptyString a.IP, a.Port) := by
  have hs : Split a.String ':' = [ipEmptyString a.IP, Itoa a.Port] := by
    rw [UDPAddr_String_eq, Split_append ':' _ _ (colon_not_mem_ipEmptyString a.IP),
      Split_of_not_mem ':' _ (colon_not_mem_Itoa a.Port)]
  simp [peerEntry, hs, Atoi_Itoa a.Port h]

theorem comma_not_mem_String (a : UDPAddr) : ',' ∉ a.String := by
  rw [UDPAddr_String_eq]
  simp only [List.mem_append, List.mem_cons, not_or]
  exact ⟨comma_not_mem_ipEmptyString a.IP, by decide, comma_not_mem_Itoa a.Port⟩

theorem peerlistEntries_peerlist (c0 : peer) (ps : List peer) (cname : List Char) :
    peerlistEntries (peerlist { peers := c0 :: ps, name := cname }) =
      ps.map (fun p => p.addr.String) := by
  cases ps with
  | nil => rfl
  | cons a as =>
    have hj : peerlist { peers := c0 :: a :: as, name := cname } =
        Join ((a :: as).map (fun p => p.addr.String)) [','] := by
      simp [peerlist]
    have hcolon : ':' ∈ Join ((a :: as).map (fun p => p.addr.String)) [','] := by
      apply mem_Join [','] _ a.addr.String (by simp)
      rw [UDPAddr_String_eq]
      simp
    have hne : Join ((a :: as).map (fun p => p.addr.String)) [','] ≠ "nil".toList := by
      intro e
      rw [e] at hcolon
      revert hcolon
      decide
    rw [hj, peerlistEntries, if_pos hne]
    apply Split_Join ',' _ (by simp)
    intro s hs
    obtain ⟨q, _, rfl⟩ := List.mem_map.1 hs
    exact comma_not_mem_String q.addr

theorem connectLoop_completes (route : UDPAddr → Bool) (clock : Nat → Int) (buff : List Char)
    (hr : ∀ a, route a = true) :
    ∀ (entries : List (List Char)) (k : Nat) (c : circle),
      (∀ e ∈ entries, 0 ≤ (peerEntry e).2 ∧ (peerEntry e).2 ≤ 65535) →
      (connectLoop route clock buff entries k c).2.2 = false := by
  intro entries
  induction entries with
  | nil => intro k c _; rfl
  | cons e es ih =>
    intro k c h
    have he := h e (by simp)
    have hd : DialUDP route (newPeer (clock k) (peerEntry e).1 (peerEntry e).2).addr = true := by
      simp [DialUDP, newPeer, he.1, he.2, hr]
    have hes := fun x hx => h x (List.mem_cons_of_mem _ hx)
    by_cases hx : peerExists c (peerEntry e).1 (peerEntry e).2 = none
    · simp only [connectLoop, hx, if_true, hd]
      exact ih _ _ hes
    · simp only [connectLoop, hx, if_false]
      exact ih _ _ hes

/-- C6 as amended: when the payload the handler writes for the peers `ps`
behind the local peer (`nil` for none, otherwise their `host:port` texts
joined by commas) has at most 1024 bytes, every port lies in 0..65535 and
every destination can be dialled, then `connect`, reading the payload into
its 1024-byte buffer (nothing for `nil`; otherwise split at the commas, host
the text before the first colon, port the integer after the last one), runs
through the whole list without a panic and gets back the same addresses in
the same order: the host text and port of every peer, and through `newPeer`
the very `UDPAddr` of every peer. -/
theorem peerlist_roundtrip (now : Int) (c0 : peer) (ps : List peer) (cname : List Char)
    (hp : ∀ p ∈ ps, 0 ≤ p.addr.Port ∧ p.addr.Port ≤ 65535)
    (hlen : (peerlist { peers := c0 :: ps, name := cname }).length ≤ 1024) :
    (peerlistEntries (readBuf (peerlist { peers := c0 :: ps, name := cname }))).map peerEntry =
        ps.map (fun p => (ipEmptyString p.addr.IP, p.addr.Port)) ∧
      ((peerlistEntries (readBuf (peerlist { peers := c0 :: ps, name := cname }))).map
          peerEntry).map (fun e => (newPeer now e.1 e.2).addr) =
        ps.map (fun p => p.addr) ∧
      ∀ (route : UDPAddr → Bool) (clock : Nat → Int) (j0 j1 : peer) (js : List peer)
        (jname : List Char), (∀ a, route a = true) →
        0 ≤ j1.addr.Port ∧ j1.addr.Port ≤ 65535 →
        (connect route clock { peers := j0 :: j1 :: js, name := jname }
          (peerlist { peers := c0 :: ps, name := cname })).2.2 = false := by
  have h1 : (peerlistEntries (readBuf (peerlist { peers := c0 :: ps, name := cname }))).map
      peerEntry = ps.map (fun p => (ipEmptyString p.addr.IP, p.addr.Port)) := by
    rw [readBuf_of_le _ hlen, peerlistEntries_peerlist, List.map_map]
    apply List.map_congr_left
    intro p hpm
    have := hp p hpm
    exact peerEntry_String p.addr (by unfold isInt64; omega)
  refine ⟨h1, ?_, ?_⟩
  · rw [h1, List.map_map]
    apply List.map_congr_left
    intro p _
    simp [newPeer, ParseIP_ipEmptyString]
  · intro route clock j0 j1 js jname hr hj
    have hd : DialUDP route j1.addr = true := by simp [DialUDP, hj.1, hj.2, hr]
    simp only [connect, hd, if_true, connectMerge]
    apply connectLoop_completes route clock _ hr
    intro e he
    have hm : peerEntry e ∈ ps.map (fun p => (ipEmptyString p.addr.IP, p.addr.Port)) := by
      rw [← h1]
      exact List.mem_map_of_mem _ he
    obtain ⟨p, hpm, hpe⟩ := List.mem_map.1 hm
    rw [← hpe]
    exact hp p hpm

/-- Witness of C6: behind the local peer, a peer at 10.0.0.1:1111, a peer
with the nil IP at port 7 and a peer at 192.168.1.20:65535. -/
theorem peerlist_roundtrip_witness :
    (∀ p ∈ [newPeer 0 "10.0.0.1".toList 1111, newPeer 0 "localhost".toList 7,
        newPeer 0 "192.168.1.20".toList 65535], 0 ≤ p.addr.Port ∧ p.addr.Port ≤ 65535) ∧
      (peerlist
          { peers := [newPeer 0 "127.0.0.1".toList 9001, newPeer 0 "10.0.0.1".toList 1111,
              newPeer 0 "localhost".toList 7, newPeer 0 "192.168.1.20".toList 65535],
            name := [] }).length ≤ 1024 ∧
      (peerlistEntries (readBuf (peerlist
          { peers := [newPeer 0 "127.0.0.1".toList 9001, newPeer 0 "10.0.0.1".toList 1111,
              newPeer 0 "localhost".toList 7, newPeer 0 "192.168.1.20".toList 65535],
            name := [] }))).map peerEntry =
        [("10.0.0.1".toList, 1111), ([], 7), ("192.168.1.20".toList, 65535)] :=
  ⟨by decide, by decide,
    (peerlist_roundtrip 0 (newPeer 0 "127.0.0.1".toList 9001)
      [newPeer 0 "10.0.0.1".toList 1111, newPeer 0 "localhost".toList 7,
        newPeer 0 "192.168.1.20".toList 65535] [] (by decide) (by decide)).1.trans (by decide)⟩

set_option maxRecDepth 100000 in
/-- Counterexample to C6 as stated.  First, the payload written for 80 peers
10.0.0.1:9000 .. 10.0.0.1:9079 has 1119 bytes; `connect` reads 1024 of them
and gets 74 entries, the last one the cut text `10`, not the 80 addresses.
Second, for the peers 10.0.0.1:70000 and 10.0.0.2:9002 the payload fits, but
`connect` panics on the nil connection of the first one (port above 65535)
and never reads the second. -/
theorem peerlist_roundtrip_counterexample :
    (peerlist (exampleCircle 80)).length = 1119 ∧
      ((peerlistEntries (readBuf (peerlist (exampleCircle 80)))).map peerEntry).length = 74 ∧
      ((peerlistEntries (readBuf (peerlist (exampleCircle 80)))).map peerEntry).getLast? = some ("10".toList, 10) ∧
      (peerlistEntries (readBuf (peerlist (exampleCircle 80)))).map peerEntry ≠
        ((exampleCircle 80).peers.drop 1).map
          (fun p => (ipEmptyString p.addr.IP, p.addr.Port)) ∧
      connect (fun _ => true) (fun _ => 1)
          { peers := [newPeer 0 "127.0.0.1".toList 9003, newPeer 0 "10.0.0.9".toList 9001],
            name := [] }
          (peerlist
            { peers := [newPeer 0 "127.0.0.1".toList 9001, newPeer 0 "10.0.0.1".toList 70000,
                newPeer 0 "10.0.0.2".toList 9002],
              name := [] }) =
        ({ peers := [newPeer 0 "127.0.0.1".toList 9003, newPeer 0 "10.0.0.9".toList 9001,
              newPeer 1 "10.0.0.1".toList 70000], name := [] },
          [({ IP := IP.v4 10 0 0 9, Port := 9001 }, "9003".toList)], true) := by
  decide

theorem chatSend_eq (route : UDPAddr → Bool) (clock : Nat → Int) (c0 : peer)
    (buffer : List Char) :
    ∀ (ps : List peer) (k : Nat), (∀ p ∈ ps, DialUDP route p.addr = true) →
      chatSend route clock c0 buffer ps k =
        (((ps.enumFrom k).filter (fun kp => !isIdle (clock kp.1) kp.2)).map
          (fun kp => (kp.2.addr,
            if Contains buffer "/quit".toList then quitMsg c0.addr.Port
            else chatMsg c0.name buffer)), false) := by
  intro ps
  induction ps with
  | nil => intro k _; simp [chatSend]
  | cons p ps ih =>
    intro k h
    have hp := h p (by simp)
    simp only [chatSend, hp, if_true, List.enumFrom_cons, List.filter_cons,
      ih (k + 1) (fun x hx => h x (List.mem_cons_of_mem _ hx))]
    cases Contains buffer "/quit".toList <;> cases isIdle (clock k) p <;> simp

theorem enumFrom_filter_const (f : peer → Bool) : ∀ (ps : List peer) (k : Nat),
    ((ps.enumFrom k).filter (fun kp => f kp.2)).map (fun kp => kp.2) = ps.filter f := by
  intro ps
  induction ps with
  | nil => intro k; simp
  | cons p ps ih =>
    intro k
    simp only [List.enumFrom_cons, List.filter_cons]
    by_cases h : f p = true <;> simp [h, ih (k + 1)]

/-- C8 as amended: on a directory `c0 :: rest` whose remote entries can all
be dialled, and an input line, `chat` writes exactly one datagram to each
entry of `rest` that is not idle at the clock reading of its check, in
directory order, and none to an idle entry or to `c0`.  If the line
contains the text `/quit` each datagram is `/quit,<local port>` and the
function returns; otherwise each datagram is `<local name> > <line>` and the
loop goes on with the next line.  The second part is the same statement for
a single clock reading `now`. -/
theorem chat_round (route : UDPAddr → Bool) (clock : Nat → Int) (now : Int) (c0 : peer)
    (rest : List peer) (cname buffer : List Char)
    (hdial : ∀ p ∈ rest, DialUDP route p.addr = true) :
    chatLine route clock { peers := c0 :: rest, name := cname } buffer =
        (((rest.enum.filter (fun kp => !isIdle (clock kp.1) kp.2)).map
            (fun kp => (kp.2.addr,
              if Contains buffer "/quit".toList then quitMsg c0.addr.Port
              else chatMsg c0.name buffer))),
          if Contains buffer "/quit".toList then Flow.returned else Flow.next) ∧
      chatLine route (fun _ => now) { peers := c0 :: rest, name := cname } buffer =
        (((rest.filter (fun p => !isIdle now p)).map
            (fun p => (p.addr,
              if Contains buffer "/quit".toList then quitMsg c0.addr.Port
              else chatMsg c0.name buffer))),
          if Contains buffer "/quit".toList then Flow.returned else Flow.next) := by
  constructor
  · simp [chatLine, chatSend_eq route clock c0 buffer rest 0 hdial, List.enum]
  · simp only [chatLine, chatSend_eq route (fun _ => now) c0 buffer rest 0 hdial]
    rw [← enumFrom_filter_const (fun p => !isIdle now p) rest 0, List.map_map]
    simp

/-- Witness of C8: behind the local peer `bob`, a peer seen at the clock
reading and a peer last seen 11 minutes before; the line `hello` goes to the
first only and the loop goes on. -/
theorem chat_round_witness :
    (∀ p ∈ [newPeer 660000000000 "10.0.0.2".toList 9002, newPeer 0 "10.0.0.3".toList 9003],
        DialUDP (fun _ => true) p.addr = true) ∧
      chatLine (fun _ => true) (fun _ => 660000000000)
          { peers := [{ addr := { IP := IP.v4 127 0 0 1, Port := 9001 }, name := "bob".toList,
                        time := 0 },
                      newPeer 660000000000 "10.0.0.2".toList 9002,
                      newPeer 0 "10.0.0.3".toList 9003],
            name := "local".toList } "hello".toList =
        ([({ IP := IP.v4 10 0 0 2, Port := 9002 }, "bob > hello".toList)], Flow.next) :=
  ⟨by decide,
    (chat_round (fun _ => true) (fun _ => 660000000000) 660000000000
      { addr := { IP := IP.v4 127 0 0 1, Port := 9001 }, name := "bob".toList, time := 0 }
      [newPeer 660000000000 "10.0.0.2".toList 9002, newPeer 0 "10.0.0.3".toList 9003]
      "local".toList "hello".toList (by decide)).2.trans (by decide)⟩

/-- Counterexample to C8 as stated.  First, the line `ab/quit` is not the
leave command `/quit`, yet `chat` writes the quit datagram to the (non-idle)
peer and returns, instead of writing the chat message `bob > ab/quit` and
going on.  Second, the handler stores the sender of the datagram `70000` as
a peer at port 70000; the dial of that peer returns nil and `chat` panics on
the line `hello`, writing nothing to it although it is not idle. -/
theorem chat_round_counterexample :
    "ab/quit".toList ≠ "/quit".toList ∧
      chatLine (fun _ => true) (fun _ => 0)
          { peers := [{ addr := { IP := IP.v4 127 0 0 1, Port := 9001 }, name := "bob".toList,
                        time := 0 },
                      { addr := { IP := IP.v4 10 0 0 2, Port := 9002 }, name := [], time := 0 }],
            name := "local".toList } "ab/quit".toList =
        ([({ IP := IP.v4 10 0 0 2, Port := 9002 }, "/quit,9001".toList)], Flow.returned) ∧
      chatLine (fun _ => true) (fun _ => 0)
          { peers := [{ addr := { IP := IP.v4 127 0 0 1, Port := 9001 }, name := "bob".toList,
                        time := 0 },
                      { addr := { IP := IP.v4 10 0 0 2, Port := 9002 }, name := [], time := 0 }],
            name := "local".toList } "ab/quit".toList ≠
        ([({ IP := IP.v4 10 0 0 2, Port := 9002 }, chatMsg "bob".toList "ab/quit".toList)],
          Flow.next) ∧
      (listen 0
          { peers := [{ addr := { IP := IP.v4 127 0 0 1, Port := 9001 }, name := "bob".toList,
                        time := 0 }], name := "local".toList }
          { IP := IP.v4 10 0 0 2, Port := 40000 } "70000".toList).1 =
        { peers := [{ addr := { IP := IP.v4 127 0 0 1, Port := 9001 }, name := "bob".toList,
                      time := 0 },
                    { addr := { IP := IP.v4 10 0 0 2, Port := 70000 }, name := [], time := 0 }],
          name := "local".toList } ∧
      isIdle 0 { addr := { IP := IP.v4 10 0 0 2, Port := 70000 }, name := [], time := 0 } = false ∧
      chatLine (fun _ => true) (fun _ => 0)
          { peers := [{ addr := { IP := IP.v4 127 0 0 1, Port := 9001 }, name := "bob".toList,
                        time := 0 },
                      { addr := { IP := IP.v4 10 0 0 2, Port := 70000 }, name := [], time := 0 }],
            name := "local".toList } "hello".toList =
        ([], Flow.panicked) := by
  decide

theorem handle_preserves_distinctAddrs (now : Int) (c : circle) (remote : UDPAddr)
    (buff : List Char) (hd : distinctAddrs c) :
    distinctAddrs (handle now c remote buff).1 := by
  cases hb : classify buff with
  | chat => simpa [handle, hb] using hd
  | quit port =>
    cases hi : peerExists c remote.IP.String port with
    | none => rw [handle_absent now c remote buff port (Or.inl hb) hi]; exact hd
    | some i =>
      obtain ⟨pre, x, post, hc, _, hx, hpre⟩ := peerIndex_eq_some _ _ _ _ hi
      rw [handle_quit now c remote buff port hb pre post x hc hx hpre]
      unfold distinctAddrs at hd ⊢
      rw [hc] at hd
      refine List.Nodup.sublist ?_ hd
      apply List.Sublist.map
      exact List.Sublist.append (List.Sublist.refl _) (List.sublist_cons_self _ _)
  | heartbeat port =>
    cases hi : peerExists c remote.IP.String port with
    | none => rw [handle_absent now c remote buff port (Or.inr hb) hi]; exact hd
    | some i =>
      obtain ⟨pre, x, post, hc, _, hx, hpre⟩ := peerIndex_eq_some _ _ _ _ hi
      rw [handle_heartbeat now c remote buff port hb pre post x hc hx hpre]
      unfold distinctAddrs at hd ⊢
      rw [hc] at hd
      simpa [peer.key] using hd
  | join port =>
    cases hi : peerExists c remote.IP.String port with
    | none =>
      have hnew := (peerIndex_eq_none _ _ _).1 hi
      unfold distinctAddrs at hd ⊢
      simp only [handle, hb, hi, if_true, List.map_append, List.map_cons, List.map_nil]
      rw [List.nodup_append]
      refine ⟨hd, by simp, ?_⟩
      intro k hk hk2
      obtain ⟨q, hq, rfl⟩ := List.mem_map.1 hk
      rw [key_newPeer] at hk2
      exact hnew q hq (by simpa using hk2)
    | some i => simpa [handle, hb, hi] using hd

/-- The handler keeps the addresses of the directory pairwise distinct,
whatever the datagram (the part of C4 that the code meets). -/
theorem listen_preserves_distinctAddrs (now : Int) (c : circle) (remote : UDPAddr)
    (datagram : List Char) (hd : distinctAddrs c) :
    distinctAddrs (listen now c remote datagram).1 :=
  handle_preserves_distinctAddrs now c remote (readBuf datagram) hd

/-- The loop of `connect` only appends: the entries present before are kept
in place and unchanged, and when the loop does not panic the announcement
has been written to exactly the appended peers, in order. -/
theorem connectLoop_appends (route : UDPAddr → Bool) (clock : Nat → Int) (buff : List Char) :
    ∀ (entries : List (List Char)) (k : Nat) (c : circle),
      ∃ added : List peer,
        (connectLoop route clock buff entries k c).1 = { c with peers := c.peers ++ added } ∧
        ((connectLoop route clock buff entries k c).2.2 = false →
          (connectLoop route clock buff entries k c).2.1 = added.map (fun q => (q.addr, buff))) := by
  intro entries
  induction entries with
  | nil => intro k c; exact ⟨[], by simp [connectLoop], by simp [connectLoop]⟩
  | cons e es ih =>
    intro k c
    by_cases h : peerExists c (peerEntry e).1 (peerEntry e).2 = none
    · by_cases hd : DialUDP route (newPeer (clock k) (peerEntry e).1 (peerEntry e).2).addr = true
      · obtain ⟨added, h1, h2⟩ := ih (k + 1)
          { c with peers := c.peers ++ [newPeer (clock k) (peerEntry e).1 (peerEntry e).2] }
        refine ⟨newPeer (clock k) (peerEntry e).1 (peerEntry e).2 :: added, ?_, ?_⟩
        · simp only [connectLoop, h, if_true, hd, h1]
          simp
        · simp only [connectLoop, h, if_true, hd]
          intro hc
          simp [h2 hc]
      · refine ⟨[newPeer (clock k) (peerEntry e).1 (peerEntry e).2], ?_, ?_⟩
        · simp only [connectLoop, h, if_true, hd]
          simp
        · simp only [connectLoop, h, if_true, hd]
          simp
    · obtain ⟨added, h1, h2⟩ := ih (k + 1) c
      exact ⟨added, by simp only [connectLoop, h, if_false, h1],
        by simp only [connectLoop, h, if_false]; exact h2⟩

/-- C2, the code at the failing input: peer C at 10.0.0.2:9002 is already
in the directory when its connect datagram `9002` arrives from 10.0.0.2;
the peer list written back to it is `10.0.0.2:9002`, that is C itself. -/
theorem join_response_echoes_requester :
    listen 5
        { peers := [newPeer 0 "127.0.0.1".toList 9001, newPeer 1 "10.0.0.2".toList 9002],
          name := "local".toList }
        { IP := IP.v4 10 0 0 2, Port := 40000 } (joinMsg 9002) =
      ({ peers := [newPeer 0 "127.0.0.1".toList 9001, newPeer 1 "10.0.0.2".toList 9002],
         name := "local".toList },
       [({ IP := IP.v4 10 0 0 2, Port := 40000 }, "10.0.0.2:9002".toList)]) ∧
      (peerlistEntries "10.0.0.2:9002".toList).map peerEntry = [("10.0.0.2".toList, 9002)] := by
  decide

/-- C3, the code at the failing input: a quit datagram for the local port
9001 coming from 127.0.0.1 makes `peerExists` return index 0, and the local
peer is removed: with a peer B behind it, B becomes entry 0; alone, the
directory becomes empty, after which `chat` and `heartbeat` panic. -/
theorem quit_evicts_local :
    listenAll
        { peers := [newPeer 0 "127.0.0.1".toList 9001, newPeer 1 "10.0.0.2".toList 9002],
          name := "local".toList }
        [(5, { IP := IP.v4 127 0 0 1, Port := 40000 }, quitMsg 9001)] =
      { peers := [newPeer 1 "10.0.0.2".toList 9002], name := "local".toList } ∧
      listenAll { peers := [newPeer 0 "127.0.0.1".toList 9001], name := "local".toList }
        [(5, { IP := IP.v4 127 0 0 1, Port := 40000 }, quitMsg 9001)] =
      { peers := [], name := "local".toList } ∧
      chatLine (fun _ => true) (fun _ => 6) { peers := [], name := "local".toList }
        "hello".toList = ([], Flow.panicked) ∧
      heartbeat (fun _ => true) { peers := [], name := "local".toList } = ([], true) := by
  decide

/-- C4, the code at the failing input: a node started with the target
`localhost:9001` holds its bootstrap with the nil IP; the peer list
`:9001,:0` read back makes `connect` add the bootstrap's address a second
time, because `peerExists` compares the text of the list (the empty host)
with `IP.String()` of the stored peers (`<nil>`).  The directory had pairwise
distinct addresses before and has not afterwards. -/
theorem connect_breaks_distinctAddrs :
    distinctAddrs
        { peers := [newPeer 0 "127.0.0.1".toList 9002, newPeer 0 "localhost".toList 9001],
          name := "local".toList } ∧
      (connect (fun _ => true) (fun _ => 1)
          { peers := [newPeer 0 "127.0.0.1".toList 9002, newPeer 0 "localhost".toList 9001],
            name := "local".toList } ":9001,:0".toList).1.peers.map peer.key =
        [("127.0.0.1".toList, 9002), ("<nil>".toList, 9001), ("<nil>".toList, 9001),
          ("<nil>".toList, 0)] ∧
      (connect (fun _ => true) (fun _ => 1)
          { peers := [newPeer 0 "127.0.0.1".toList 9002, newPeer 0 "localhost".toList 9001],
            name := "local".toList } ":9001,:0".toList).2.2 = false ∧
      ¬ distinctAddrs
        (connect (fun _ => true) (fun _ => 1)
          { peers := [newPeer 0 "127.0.0.1".toList 9002, newPeer 0 "localhost".toList 9001],
            name := "local".toList } ":9001,:0".toList).1 ∧
      ¬ distinctAddrs
        (connectMerge (fun _ => true) (fun _ => 1) (joinMsg 9002)
          { peers := [newPeer 0 "127.0.0.1".toList 9002, newPeer 0 "localhost".toList 9001],
            name := "local".toList } ":9001,:0".toList).1 := by
  decide

/-- C5, the code at the failing input: the peer list
`localhost:9003,localhost:9003` names the same address twice; `connect` adds
it twice and announces itself to it twice, where the second entry was
already known from the first (`peerExists` looks for the host `localhost`,
the stored peer answers `<nil>`).  On the payload `nil` nothing is added and
only the bootstrap is written to. -/
theorem connect_adds_known_entry :
    connect (fun _ => true) (fun _ => 1)
        { peers := [newPeer 0 "127.0.0.1".toList 9002, newPeer 0 "10.0.0.1".toList 9001],
          name := "local".toList } "localhost:9003,localhost:9003".toList =
      ({ peers := [newPeer 0 "127.0.0.1".toList 9002, newPeer 0 "10.0.0.1".toList 9001,
                newPeer 1 "localhost".toList 9003, newPeer 1 "localhost".toList 9003],
              name := "local".toList },
            [({ IP := IP.v4 10 0 0 1, Port := 9001 }, "9002".toList),
             ({ IP := IP.nil, Port := 9003 }, "9002".toList),
             ({ IP := IP.nil, Port := 9003 }, "9002".toList)], false) ∧
      connect (fun _ => true) (fun _ => 1)
        { peers := [newPeer 0 "127.0.0.1".toList 9002, newPeer 0 "10.0.0.1".toList 9001],
          name := "local".toList } "nil".toList =
      ({ peers := [newPeer 0 "127.0.0.1".toList 9002, newPeer 0 "10.0.0.1".toList 9001],
              name := "local".toList },
            [({ IP := IP.v4 10 0 0 1, Port := 9001 }, "9002".toList)], false) := by
  decide

end Airlock
